import Mathlib

/-!
Verification development for the `plugin-pub` repository: a release-automation
plugin that publishes Dart/Flutter packages to pub.dev.

The Go source is shallowly embedded below:
* `Pubspec`, `ValidatePubspec`, `IsFlutterPackage` — pubspec model and validation
  (`pubspec.go`).
* `UpdateVersionModel` / `updateVersionRun` — the textual in-place version edit,
  including a faithful model of Go's RE2 matching of `(?m)^version:\s*.+$` and of
  `Regexp.ReplaceAll` template expansion (`pubspec.go`).
* `PubCredentials`, `IsExpired`, `IsValid` — credentials (`credentials.go`), with
  the current wall-clock time passed explicitly.
* `executePrePublish` / `executePostPublish` — the hook pipelines (`plugin.go`),
  with external process outcomes (dart analyze/format/test/publish) and the YAML
  parser supplied as oracles, and with file writes and command invocations made
  observable in the result.

File text is modelled as `List Char`; the sources' inputs in the claims are
ASCII, where Go's byte-oriented regexp agrees with the character-level model.
Go's `len` on strings (a byte count) is modelled by `String.utf8ByteSize`.
-/

deriving instance DecidableEq for Except

namespace Pub

/-! ## Pubspec data model (`pubspec.go`) -/

/-- `Pubspec` from `pubspec.go`.  The Go `map[string]any` fields `Dependencies`,
`DevDeps` and `Flutter` are modelled by their key lists: the source never reads
the (opaque `any`) values, only key membership and length.  `Environment` is
`Option`-wrapped because the source distinguishes a nil map from an empty one. -/
structure Pubspec where
  name : String
  version : String
  description : String
  homepage : String
  repository : String
  environment : Option (List (String × String))
  dependencies : List String
  devDeps : List String
  flutter : List String
deriving DecidableEq, Repr

/-- Go `len` on a string is its UTF-8 byte count. -/
def goStrLen (s : String) : Nat := s.utf8ByteSize

/-- Lookup in a Go `map[string]string` modelled as an association list. -/
def lookupStr (m : List (String × String)) (k : String) : Option String :=
  (m.find? (fun p => p.1 == k)).map (fun p => p.2)

/-- `ValidatePubspec` from `pubspec.go`: returns `some errorMessage` for the first
violated rule (the Go function returns on the first failing check), `none` when
the pubspec passes all checks. -/
def ValidatePubspec (p : Pubspec) : Option String :=
  if p.name = "" then some "package name is required"
  else if p.version = "" then some "version is required"
  else if p.description = "" then some "description is required for pub.dev"
  else if goStrLen p.description < 60 then
    some ("description should be at least 60 characters (currently " ++
      toString (goStrLen p.description) ++ ")")
  else if goStrLen p.description > 180 then
    some ("description should be at most 180 characters (currently " ++
      toString (goStrLen p.description) ++ ")")
  else
    match p.environment with
    | none => some "environment section is required"
    | some env =>
      match lookupStr env "sdk" with
      | none => some "SDK constraint is required in environment section"
      | some sdk =>
        if sdk = "" then some "SDK constraint is required in environment section"
        else none

/-- `IsFlutterPackage` from `pubspec.go`. -/
def IsFlutterPackage (p : Pubspec) : Bool :=
  if p.dependencies.contains "flutter" then true
  else if p.flutter.length > 0 then true
  else false

/-! ## Credentials (`credentials.go`) -/

/-- `PubCredentials` from `credentials.go`. -/
structure PubCredentials where
  accessToken : String
  refreshToken : String
  tokenEndpoint : String
  expiration : Int
deriving DecidableEq, Repr

/-- `CreateCredentialsFromToken` from `credentials.go`: only the access token is
set, all other fields keep their zero values. -/
def CreateCredentialsFromToken (token : String) : PubCredentials :=
  { accessToken := token, refreshToken := "", tokenEndpoint := "", expiration := 0 }

/-- `IsExpired` from `credentials.go`; `now` stands for `time.Now().Unix()`. -/
def IsExpired (c : PubCredentials) (now : Int) : Bool :=
  if c.expiration = 0 then false
  else decide (now > c.expiration)

/-- `IsValid` from `credentials.go`. -/
def IsValid (c : PubCredentials) (now : Int) : Bool :=
  if c.accessToken = "" then false
  else !(IsExpired c now)

/-! ## The version regex `(?m)^version:\s*.+$` (`pubspec.go`, `UpdateVersion`)

Go's regexp (RE2 syntax, leftmost-first Perl-style matching) with `(?m)`:
`^`/`$` anchor at line boundaries, `\s` is `[\t\n\f\r ]` (note: it matches
newlines), `.` is any character except newline, and `*`/`+` are greedy. -/

/-- RE2 `\s`: `[\t\n\f\r ]`. -/
def wsChar (c : Char) : Bool :=
  c == ' ' || c == '\t' || c == '\n' || c == '\x0c' || c == '\x0d'

/-- Length of the maximal prefix of characters other than `'\n'` (the greedy
extent of `.+` from a given position). -/
def nonNlRun : List Char → Nat
  | [] => 0
  | c :: rest => if c == '\n' then 0 else nonNlRun rest + 1

/-- Length of the maximal whitespace prefix (the greedy extent of `\s*`). -/
def wsRunLen : List Char → Nat
  | [] => 0
  | c :: rest => if wsChar c then wsRunLen rest + 1 else 0

/-- The literal `version:` that must start a match at a line start. -/
def versionKey : List Char := ['v', 'e', 'r', 's', 'i', 'o', 'n', ':']

/-- Backtracking search for `\s*.+$` at the start of `t`: `\s*` first tries the
whole whitespace run (`k = wsRunLen t`) and gives characters back one at a time;
`.+$` succeeds at offset `k` iff the character there is not a newline, in which
case the greedy `.+` runs to the end of the line, where `$` holds. -/
def tailMatchAux (t : List Char) : Nat → Option Nat
  | 0 =>
    match t.head? with
    | some c => if c == '\n' then none else some (nonNlRun t)
    | none => none
  | k + 1 =>
    match (t.drop (k + 1)).head? with
    | some c =>
      if c == '\n' then tailMatchAux t k
      else some ((k + 1) + nonNlRun (t.drop (k + 1)))
    | none => tailMatchAux t k

/-- Length of the match of `\s*.+$` at the start of `t`, if any. -/
def tailMatch (t : List Char) : Option Nat := tailMatchAux t (wsRunLen t)

/-- Length of the match of `(?m)^version:\s*.+$` starting at the head of `s`,
assuming the head of `s` is at a line start; `none` if there is no match here. -/
def matchAt (s : List Char) : Option Nat :=
  if s.take 8 = versionKey then (tailMatch (s.drop 8)).map (fun w => w + 8)
  else none

/-- `Regexp.Match` for the version pattern: scans every line start of `s`
(`atStart` records whether the head of `s` is at a line start). -/
def hasVersionMatch (s : List Char) (atStart : Bool) : Bool :=
  (atStart && (matchAt s).isSome) ||
    (match s with
     | [] => false
     | c :: rest => hasVersionMatch rest (c == '\n'))

/-- Is `c` a template "name" character for Go's `Regexp.Expand`
(`unicode.IsLetter`, `unicode.IsDigit` or `'_'`; ASCII fragment). -/
def nameChar (c : Char) : Bool := c.isAlpha || c.isDigit || c == '_'

/-- Go's `Regexp.Expand` of a replacement template, specialised to the version
pattern, which has no capture groups: `$$` emits `$`; a valid `$name`/`${name}`
reference emits the whole match for group `0` (name `"0"`) and the empty string
for every other group number or name (the pattern has no group 1, 2, … and no
named groups; a leading zero such as `"00"` makes Go treat the name as a — here
nonexistent — named group, also yielding the empty string); a malformed
reference leaves the `$` as literal text.  `fuel` only bounds recursion; it is
never exhausted when `fuel ≥` template length. -/
def expandF (matched : List Char) : Nat → List Char → List Char
  | _, [] => []
  | 0, l => l
  | fuel + 1, c :: rest =>
    if c = '$' then
      if rest.head? = some '$' then '$' :: expandF matched fuel (rest.drop 1)
      else if rest.head? = some '{' then
        let body := rest.drop 1
        let name := body.takeWhile nameChar
        let after := body.drop name.length
        if name ≠ [] ∧ after.head? = some '}' then
          (if name = ['0'] then matched else []) ++ expandF matched fuel (after.drop 1)
        else
          '$' :: expandF matched fuel rest
      else
        let name := rest.takeWhile nameChar
        if name = [] then '$' :: expandF matched fuel rest
        else (if name = ['0'] then matched else []) ++
          expandF matched fuel (rest.drop name.length)
    else c :: expandF matched fuel rest

/-- Expansion of a replacement template against a match of the version pattern. -/
def expandTmpl (matched tmpl : List Char) : List Char :=
  expandF matched tmpl.length tmpl

/-- One scan step of `Regexp.ReplaceAll` for the version pattern: at each line
start try the pattern; on a match of length `L`, emit the expanded template and
resume (not at a line start — a match always ends just before a newline or at
the end of the text) after the matched text; otherwise copy one character.
`fuel` only bounds recursion; `fuel ≥` text length always suffices because each
step consumes at least one character. -/
def replaceAuxF (tmpl : List Char) : Nat → List Char → Bool → List Char
  | _, [], _ => []
  | 0, _ :: _, _ => []
  | fuel + 1, c :: rest, atStart =>
    match (if atStart then matchAt (c :: rest) else none) with
    | some L =>
      expandTmpl ((c :: rest).take L) tmpl ++
        replaceAuxF tmpl fuel ((c :: rest).drop L) false
    | none => c :: replaceAuxF tmpl fuel rest (c == '\n')

/-- `Regexp.ReplaceAll` for the version pattern over the whole text. -/
def replaceVersionAll (tmpl s : List Char) : List Char :=
  replaceAuxF tmpl s.length s true

/-- `UpdateVersion` from `pubspec.go`, as a pure function on the file content:
if the pattern matches, every match is replaced by the expansion of
`"version: " ++ version` (Go: `fmt.Sprintf("version: %s", version)` passed to
`ReplaceAll`); otherwise the field-not-found error is returned. -/
def UpdateVersionModel (content version : List Char) : Except String (List Char) :=
  if hasVersionMatch content true then
    .ok (replaceVersionAll ("version: ".toList ++ version) content)
  else
    .error "version field not found in pubspec.yaml"

/-- `UpdateVersion` including its effect on the file: returns
`(error?, new file content, wrote?)`.  On the no-match error path the Go
function returns before `os.WriteFile`, so the content is unchanged and no
write occurs. -/
def updateVersionRun (content version : List Char) :
    Option String × List Char × Bool :=
  match UpdateVersionModel content version with
  | .ok newData => (none, newData, true)
  | .error e => (some e, content, false)

/-! ## Line structure of a text -/

/-- Split a text at `'\n'` separators (the result never contains `'\n'` and is
never empty; a trailing newline yields a trailing empty line). -/
def splitNl : List Char → List (List Char)
  | [] => [[]]
  | c :: rest =>
    if c = '\n' then [] :: splitNl rest
    else
      match splitNl rest with
      | l :: ls => (c :: l) :: ls
      | [] => [[c]]

/-- Rejoin lines with `'\n'` separators. -/
def joinNl : List (List Char) → List Char
  | [] => []
  | [l] => l
  | l :: ls => l ++ '\n' :: joinNl ls

/-- A line (newline-free) that the version pattern matches entirely within
itself: it starts with `version:` and carries a non-whitespace character after
the colon (so the greedy `\s*` cannot escape past the line's end). -/
def lineVersionMatch (l : List Char) : Bool :=
  l.take 8 = versionKey && (l.drop 8).any (fun c => !wsChar c)

/-- Per-line effect of `ReplaceAll` on a manifest all of whose `version:` lines
carry non-whitespace content: matching lines are replaced by the expanded
template, all other lines are untouched. -/
def mapLine (tmpl l : List Char) : List Char :=
  if lineVersionMatch l then expandTmpl l tmpl else l

/-! ## Plugin configuration and pipelines (`plugin.go`) -/

/-- `TestConfig` from `plugin.go`. -/
structure TestConfig where
  platform : String
  concurrency : Int
  coverage : Bool
deriving DecidableEq, Repr

/-- `Config` from `plugin.go`. -/
structure Config where
  pubspecPath : String
  updateVersion : Bool
  credentialsPath : String
  accessToken : String
  hostedURL : String
  validate : Bool
  analyze : Bool
  formatCheck : Bool
  test : Bool
  testConfig : TestConfig
  dryRunValidate : Bool
  force : Bool
  exclude : List String
  dryRun : Bool
deriving DecidableEq, Repr

/-- `ExecuteResponse` of the plugin SDK: a success flag and a message. -/
structure ExecuteResponse where
  success : Bool
  message : String
deriving DecidableEq, Repr

/-- External commands the PrePublish hook can invoke through `DartCLI`. -/
inductive Cmd
  | analyze
  | formatCheck
  | test (cfg : TestConfig)
  | flutterTest
  | publishDryRun
deriving DecidableEq, Repr

/-- Result of a PrePublish run: the response, the manifest file content after
the run, and the external commands invoked, in order. -/
structure PreResult where
  resp : ExecuteResponse
  file : List Char
  cmds : List Cmd
deriving DecidableEq, Repr

/-- Oracle for the PrePublish hook's external collaborators: the YAML parse of
the manifest and the outcomes the external `dart`/`flutter` processes would
report if invoked. -/
structure PreOracle where
  parse : Except String Pubspec
  analyzeRes : Except String Unit
  formatRes : Except String Unit
  testRes : Except String Unit
  flutterTestRes : Except String Unit
  publishDryRunRes : Except String Unit
deriving Repr

/-- Terminal success of the PrePublish sequence (`plugin.go`): message
`"Package validated successfully"`. -/
def stageDone (file : List Char) : PreResult :=
  ⟨⟨true, "Package validated successfully"⟩, file, []⟩

/-- PrePublish step 6: `dart pub publish --dry-run` validation gate. -/
def stagePubDryRun (cfg : Config) (ora : PreOracle) (file : List Char) : PreResult :=
  if cfg.dryRunValidate then
    if cfg.dryRun then stageDone file
    else
      match ora.publishDryRunRes with
      | .error e => ⟨⟨false, "Dry-run validation failed: " ++ e⟩, file, [.publishDryRun]⟩
      | .ok _ =>
        let r := stageDone file
        ⟨r.resp, r.file, .publishDryRun :: r.cmds⟩
  else stageDone file

/-- PrePublish step 5: tests, branching on whether the package is a Flutter
package (Flutter packages use `flutter test` and ignore `TestConfig`). -/
def stageTest (cfg : Config) (ora : PreOracle) (isFlutter : Bool)
    (file : List Char) : PreResult :=
  if cfg.test then
    if cfg.dryRun then stagePubDryRun cfg ora file
    else if isFlutter then
      match ora.flutterTestRes with
      | .error e => ⟨⟨false, "Flutter tests failed: " ++ e⟩, file, [.flutterTest]⟩
      | .ok _ =>
        let r := stagePubDryRun cfg ora file
        ⟨r.resp, r.file, .flutterTest :: r.cmds⟩
    else
      match ora.testRes with
      | .error e => ⟨⟨false, "Tests failed: " ++ e⟩, file, [.test cfg.testConfig]⟩
      | .ok _ =>
        let r := stagePubDryRun cfg ora file
        ⟨r.resp, r.file, .test cfg.testConfig :: r.cmds⟩
  else stagePubDryRun cfg ora file

/-- PrePublish step 4: `dart format --set-exit-if-changed .`. -/
def stageFormat (cfg : Config) (ora : PreOracle) (isFlutter : Bool)
    (file : List Char) : PreResult :=
  if cfg.formatCheck then
    if cfg.dryRun then stageTest cfg ora isFlutter file
    else
      match ora.formatRes with
      | .error e => ⟨⟨false, "Format check failed: " ++ e⟩, file, [.formatCheck]⟩
      | .ok _ =>
        let r := stageTest cfg ora isFlutter file
        ⟨r.resp, r.file, .formatCheck :: r.cmds⟩
  else stageTest cfg ora isFlutter file

/-- PrePublish step 3: `dart analyze`. -/
def stageAnalyzeStep (cfg : Config) (ora : PreOracle) (isFlutter : Bool)
    (file : List Char) : PreResult :=
  if cfg.analyze then
    if cfg.dryRun then stageFormat cfg ora isFlutter file
    else
      match ora.analyzeRes with
      | .error e => ⟨⟨false, "Analysis failed: " ++ e⟩, file, [.analyze]⟩
      | .ok _ =>
        let r := stageFormat cfg ora isFlutter file
        ⟨r.resp, r.file, .analyze :: r.cmds⟩
  else stageFormat cfg ora isFlutter file

/-- `executePrePublish` from `plugin.go`.  Step 1 parses the manifest (oracle;
fatal on failure).  Step 2, when `update_version` is enabled and not in dry-run
mode, applies `UpdateVersion` to the manifest file; its failure aborts the
hook, its success threads the rewritten file through the remaining steps.
Dry-run mode suppresses the real effect of every enabled step. -/
def executePrePublish (cfg : Config) (version : String) (ora : PreOracle)
    (file : List Char) : PreResult :=
  match ora.parse with
  | .error e => ⟨⟨false, "Failed to parse pubspec.yaml: " ++ e⟩, file, []⟩
  | .ok pubspec =>
    let isFlutter := IsFlutterPackage pubspec
    if cfg.updateVersion then
      if cfg.dryRun then stageAnalyzeStep cfg ora isFlutter file
      else
        match UpdateVersionModel file version.toList with
        | .error e => ⟨⟨false, "Failed to update version: " ++ e⟩, file, []⟩
        | .ok newFile => stageAnalyzeStep cfg ora isFlutter newFile
    else stageAnalyzeStep cfg ora isFlutter file

/-- Observable events of the PostPublish hook: an attempt to load credentials
from the store, and the publish call with the credentials, force flag and
custom hosted URL it receives. -/
inductive PostEv
  | loadCreds (path : String)
  | publish (creds : Option PubCredentials) (force : Bool) (hostedURL : Option String)
deriving DecidableEq, Repr

/-- Result of a PostPublish run: the response and the events, in order. -/
structure PostResult where
  resp : ExecuteResponse
  evs : List PostEv
deriving DecidableEq, Repr

/-- Oracle for the PostPublish hook's external collaborators. -/
structure PostOracle where
  parse : Except String Pubspec
  load : Except String PubCredentials
  publishRes : Except String Unit
deriving Repr

/-- `executePostPublish` from `plugin.go`: parse the manifest (fatal on
failure); resolve credentials — an explicitly configured access token wins,
otherwise `LoadCredentials` is attempted and its error discarded
(`creds, _ = LoadCredentials(...)`); attach the hosted URL if configured;
then publish (skipped and reported as simulated in dry-run mode). -/
def executePostPublish (cfg : Config) (version : String) (ora : PostOracle) :
    PostResult :=
  match ora.parse with
  | .error e => ⟨⟨false, "Failed to parse pubspec.yaml: " ++ e⟩, []⟩
  | .ok pubspec =>
    let credsAndEv : Option PubCredentials × List PostEv :=
      if cfg.accessToken ≠ "" then
        (some (CreateCredentialsFromToken cfg.accessToken), [])
      else
        (ora.load.toOption, [.loadCreds cfg.credentialsPath])
    let hosted : Option String :=
      if cfg.hostedURL ≠ "" then some cfg.hostedURL else none
    if cfg.dryRun then
      ⟨⟨true, "[DRY-RUN] Would publish " ++ pubspec.name ++ "@" ++ version ++
        " to pub.dev"⟩, credsAndEv.2⟩
    else
      match ora.publishRes with
      | .error e =>
        ⟨⟨false, "Publish failed: " ++ e⟩,
          credsAndEv.2 ++ [.publish credsAndEv.1 cfg.force hosted]⟩
      | .ok _ =>
        ⟨⟨true, "Published " ++ pubspec.name ++ "@" ++ version ++ " to pub.dev"⟩,
          credsAndEv.2 ++ [.publish credsAndEv.1 cfg.force hosted]⟩

/-- The net effect of PrePublish step 2 on the manifest file in real
(non-dry-run) mode: the rewritten content when `update_version` is enabled,
the unchanged content otherwise. -/
def updStepRes (cfg : Config) (file : List Char) (version : String) :
    Except String (List Char) :=
  if cfg.updateVersion then UpdateVersionModel file version.toList else .ok file

/-! ## Concrete fixtures used by witnesses and counterexamples -/

/-- A 90-character description (within the required [60, 180] byte range). -/
def desc90 : String := String.mk (List.replicate 90 'a')

/-- A small valid pubspec model: `name: p`, `version: 1.0.0`, a 90-character
description and `environment: {sdk: '>=3.0.0'}`. -/
def pubspec0 : Pubspec :=
  { name := "p", version := "1.0.0", description := desc90, homepage := "",
    repository := "", environment := some [("sdk", ">=3.0.0")],
    dependencies := [], devDeps := [], flutter := [] }

/-- A pubspec model equal to `pubspec0` except for the description, whose
length is `n` bytes. -/
def pubspecDescLen (n : Nat) : Pubspec :=
  { pubspec0 with description := String.mk (List.replicate n 'b') }

/-- A configuration with every step gate enabled (the parse-time defaults of
`parseConfig`) and the given dry-run flag. -/
def cfgAll (dry : Bool) : Config :=
  { pubspecPath := "pubspec.yaml", updateVersion := true, credentialsPath := "",
    accessToken := "", hostedURL := "", validate := true, analyze := true,
    formatCheck := true, test := true, testConfig := ⟨"vm", 4, false⟩,
    dryRunValidate := true, force := true, exclude := [], dryRun := dry }

/-- PrePublish oracle in which parsing succeeds and every external command
would succeed. -/
def oraPreOk : PreOracle :=
  { parse := .ok pubspec0, analyzeRes := .ok (), formatRes := .ok (),
    testRes := .ok (), flutterTestRes := .ok (), publishDryRunRes := .ok () }

/-- PrePublish oracle in which `dart analyze` would fail. -/
def oraPreAnalyzeFail : PreOracle :=
  { oraPreOk with analyzeRes := .error "issues found" }

/-- PostPublish oracle: parse succeeds, the credentials store is unreadable,
the publish call would succeed. -/
def oraPost0 : PostOracle :=
  { parse := .ok pubspec0, load := .error "failed to read credentials",
    publishRes := .ok () }

/-- Credentials with a non-empty token expiring at epoch second 10. -/
def credsTok10 : PubCredentials :=
  { accessToken := "tok", refreshToken := "", tokenEndpoint := "", expiration := 10 }

/-- The manifest text of the end-to-end scenarios. -/
def file0 : List Char := "name: p\nversion: 1.0.0\n".toList

/-! # Theorems -/

/-- C5: `ValidatePubspec` checks its seven rules in the fixed order — name,
version, description non-empty, description minimum length, description
maximum length, environment present, sdk entry non-empty — and short-circuits
at the first violated rule, so exactly one error (the `Option String` result)
is reported per call.  With both name and version empty the reported error is
the name error `"package name is required"` (the spec's abbreviated
`"name is required"` carries a `"package "` prefix in the code), never the
version error. -/
theorem validate_order_short_circuit :
    ∀ p : Pubspec,
      (p.name = "" → ValidatePubspec p = some ("package " ++ "name is required")) ∧
      (p.name ≠ "" → p.version = "" →
        ValidatePubspec p = some "version is required") ∧
      (p.name ≠ "" → p.version ≠ "" → p.description = "" →
        ValidatePubspec p = some "description is required for pub.dev") ∧
      (p.name ≠ "" → p.version ≠ "" → p.description ≠ "" →
        goStrLen p.description < 60 →
        ValidatePubspec p = some ("description should be at least 60 characters (currently " ++
          toString (goStrLen p.description) ++ ")")) ∧
      (p.name ≠ "" → p.version ≠ "" → p.description ≠ "" →
        ¬ goStrLen p.description < 60 → goStrLen p.description > 180 →
        ValidatePubspec p = some ("description should be at most 180 characters (currently " ++
          toString (goStrLen p.description) ++ ")")) ∧
      (p.name ≠ "" → p.version ≠ "" → p.description ≠ "" →
        ¬ goStrLen p.description < 60 → ¬ goStrLen p.description > 180 →
        p.environment = none →
        ValidatePubspec p = some "environment section is required") ∧
      (∀ env, p.name ≠ "" → p.version ≠ "" → p.description ≠ "" →
        ¬ goStrLen p.description < 60 → ¬ goStrLen p.description > 180 →
        p.environment = some env →
        (lookupStr env "sdk" = none ∨ lookupStr env "sdk" = some "") →
        ValidatePubspec p = some "SDK constraint is required in environment section") ∧
      (p.name = "" → p.version = "" →
        ValidatePubspec p ≠ some "version is required") := by
  intro p
  refine ⟨?_, ?_, ?_, ?_, ?_, ?_, ?_, ?_⟩
  · intro h1
    simp [ValidatePubspec, h1]
  · intro h1 h2
    simp [ValidatePubspec, h1, h2]
  · intro h1 h2 h3
    simp [ValidatePubspec, h1, h2, h3]
  · intro h1 h2 h3 h4
    simp [ValidatePubspec, h1, h2, h3, h4]
  · intro h1 h2 h3 h4 h5
    simp [ValidatePubspec, h1, h2, h3, h4, h5]
  · intro h1 h2 h3 h4 h5 h6
    simp [ValidatePubspec, h1, h2, h3, h4, h5, h6]
  · intro env h1 h2 h3 h4 h5 h6 h7
    rcases h7 with h7 | h7 <;>
      simp [ValidatePubspec, h1, h2, h3, h4, h5, h6, h7]
  · intro h1 h2
    simp [ValidatePubspec, h1]

/-- Witness for C5 at a model with empty name and version. -/
theorem validate_order_short_circuit_witness :
    ValidatePubspec { pubspec0 with name := "", version := "" } =
      some "package name is required" ∧
    ValidatePubspec { pubspec0 with name := "", version := "" } ≠
      some "version is required" := by
  have h := validate_order_short_circuit { pubspec0 with name := "", version := "" }
  exact ⟨(h.1 rfl).trans (by decide), h.2.2.2.2.2.2.2 rfl rfl⟩

/-- C6: with all other fields valid, descriptions of exactly 60 and exactly
180 bytes are accepted; a 59-byte description is rejected with the too-short
message embedding `(currently 59)` and the minimum 60, and a 181-byte
description is rejected with the too-long message embedding both lengths. -/
theorem validate_description_bounds :
    ∀ p : Pubspec, p.name ≠ "" → p.version ≠ "" →
      ∀ env sdk, p.environment = some env → lookupStr env "sdk" = some sdk →
        sdk ≠ "" →
        ((goStrLen p.description = 60 → ValidatePubspec p = none) ∧
         (goStrLen p.description = 180 → ValidatePubspec p = none) ∧
         (goStrLen p.description = 59 →
           ValidatePubspec p =
             some "description should be at least 60 characters (currently 59)") ∧
         (goStrLen p.description = 181 →
           ValidatePubspec p =
             some "description should be at most 180 characters (currently 181)")) := by
  intro p h1 h2 env sdk henv hsdk hne
  have hdesc : ∀ n : Nat, goStrLen p.description = n → n ≠ 0 → p.description ≠ "" := by
    intro n hn hnz he
    rw [he] at hn
    have : goStrLen "" = 0 := by decide
    omega
  refine ⟨?_, ?_, ?_, ?_⟩
  · intro hl
    simp [ValidatePubspec, h1, h2, hdesc 60 hl (by omega), hl, henv, hsdk, hne]
  · intro hl
    simp [ValidatePubspec, h1, h2, hdesc 180 hl (by omega), hl, henv, hsdk, hne]
  · intro hl
    have := hdesc 59 hl (by omega)
    simp [ValidatePubspec, h1, h2, this, hl]
    decide
  · intro hl
    have := hdesc 181 hl (by omega)
    simp [ValidatePubspec, h1, h2, this, hl]
    decide

/-- Witness for C6 at the four boundary description lengths. -/
theorem validate_description_bounds_witness :
    ValidatePubspec (pubspecDescLen 60) = none ∧
    ValidatePubspec (pubspecDescLen 180) = none ∧
    ValidatePubspec (pubspecDescLen 59) =
      some "description should be at least 60 characters (currently 59)" ∧
    ValidatePubspec (pubspecDescLen 181) =
      some "description should be at most 180 characters (currently 181)" := by
  refine ⟨?_, ?_, ?_, ?_⟩
  · exact (validate_description_bounds (pubspecDescLen 60) (by decide) (by decide)
      [("sdk", ">=3.0.0")] ">=3.0.0" rfl (by decide) (by decide)).1 (by decide)
  · exact (validate_description_bounds (pubspecDescLen 180) (by decide) (by decide)
      [("sdk", ">=3.0.0")] ">=3.0.0" rfl (by decide) (by decide)).2.1 (by decide)
  · exact (validate_description_bounds (pubspecDescLen 59) (by decide) (by decide)
      [("sdk", ">=3.0.0")] ">=3.0.0" rfl (by decide) (by decide)).2.2.1 (by decide)
  · exact (validate_description_bounds (pubspecDescLen 181) (by decide) (by decide)
      [("sdk", ">=3.0.0")] ">=3.0.0" rfl (by decide) (by decide)).2.2.2 (by decide)

/-- C7: `IsExpired` is false when the expiration field is 0, and otherwise true
iff the current time exceeds the expiration epoch; `IsValid` is true iff the
access token is non-empty and the credentials are not expired (so expired
credentials are invalid even with a non-empty token, and an empty token is
invalid regardless of expiration). -/
theorem credentials_expiry_validity :
    ∀ (c : PubCredentials) (now : Int),
      (c.expiration = 0 → IsExpired c now = false) ∧
      (c.expiration ≠ 0 → (IsExpired c now = true ↔ now > c.expiration)) ∧
      (IsValid c now = true ↔ (c.accessToken ≠ "" ∧ IsExpired c now = false)) := by
  intro c now
  refine ⟨fun h => by simp [IsExpired, h], fun h => by simp [IsExpired, h], ?_⟩
  by_cases ht : c.accessToken = "" <;> simp [IsValid, ht]

/-- Witness for C7: expired credentials with a non-empty token are expired and
invalid. -/
theorem credentials_expiry_validity_witness :
    IsExpired credsTok10 20 = true ∧ IsValid credsTok10 20 = false := by
  have h := credentials_expiry_validity credsTok10 20
  have he : IsExpired credsTok10 20 = true := (h.2.1 (by decide)).mpr (by decide)
  refine ⟨he, ?_⟩
  cases hiv : IsValid credsTok10 20
  · rfl
  · exact absurd (h.2.2.mp hiv).2 (by simp [he])

/-- C9: `IsFlutterPackage` is true iff the dependency mapping contains the key
`flutter` or the flutter section is non-empty; each disjunct suffices
independently, and a model with neither yields false. -/
theorem isFlutterPackage_iff :
    ∀ p : Pubspec,
      IsFlutterPackage p = true ↔
        (p.dependencies.contains "flutter" = true ∨ p.flutter ≠ []) := by
  intro p
  unfold IsFlutterPackage
  by_cases h1 : p.dependencies.contains "flutter" <;>
    by_cases h2 : p.flutter = [] <;>
      simp [h1, h2, List.length_pos]

/-! ## Stage lemmas for the PrePublish pipeline -/

theorem stagePubDryRun_fail {cfg : Config} {ora : PreOracle} {f : List Char} {e : String}
    (hdr : cfg.dryRun = false) (hg : cfg.dryRunValidate = true)
    (he : ora.publishDryRunRes = .error e) :
    stagePubDryRun cfg ora f =
      ⟨⟨false, "Dry-run validation failed: " ++ e⟩, f, [Cmd.publishDryRun]⟩ := by
  simp [stagePubDryRun, hdr, hg, he]

theorem stagePubDryRun_pass {cfg : Config} {ora : PreOracle} {f : List Char}
    (hdr : cfg.dryRun = false)
    (hok : cfg.dryRunValidate = true → ora.publishDryRunRes = .ok ()) :
    stagePubDryRun cfg ora f =
      ⟨⟨true, "Package validated successfully"⟩, f,
        if cfg.dryRunValidate then [Cmd.publishDryRun] else []⟩ := by
  by_cases hg : cfg.dryRunValidate
  · simp [stagePubDryRun, hdr, hg, hok hg, stageDone]
  · simp [stagePubDryRun, hg, stageDone]

theorem stageTest_fail_flutter {cfg : Config} {ora : PreOracle} {f : List Char} {e : String}
    (hdr : cfg.dryRun = false) (hg : cfg.test = true)
    (he : ora.flutterTestRes = .error e) :
    stageTest cfg ora true f =
      ⟨⟨false, "Flutter tests failed: " ++ e⟩, f, [Cmd.flutterTest]⟩ := by
  simp [stageTest, hdr, hg, he]

theorem stageTest_fail_vm {cfg : Config} {ora : PreOracle} {f : List Char} {e : String}
    (hdr : cfg.dryRun = false) (hg : cfg.test = true)
    (he : ora.testRes = .error e) :
    stageTest cfg ora false f =
      ⟨⟨false, "Tests failed: " ++ e⟩, f, [Cmd.test cfg.testConfig]⟩ := by
  simp [stageTest, hdr, hg, he]

theorem stageTest_pass {cfg : Config} {ora : PreOracle} {fl : Bool} {f : List Char}
    (hdr : cfg.dryRun = false)
    (hok : cfg.test = true → (if fl then ora.flutterTestRes else ora.testRes) = .ok ()) :
    stageTest cfg ora fl f =
      ⟨(stagePubDryRun cfg ora f).resp, (stagePubDryRun cfg ora f).file,
        (if cfg.test then
           (if fl then [Cmd.flutterTest] else [Cmd.test cfg.testConfig]) else []) ++
          (stagePubDryRun cfg ora f).cmds⟩ := by
  by_cases hg : cfg.test
  · cases fl
    · have := hok hg
      simp at this
      simp [stageTest, hdr, hg, this]
    · have := hok hg
      simp at this
      simp [stageTest, hdr, hg, this]
  · simp [stageTest, hg]

theorem stageFormat_fail {cfg : Config} {ora : PreOracle} {fl : Bool} {f : List Char} {e : String}
    (hdr : cfg.dryRun = false) (hg : cfg.formatCheck = true)
    (he : ora.formatRes = .error e) :
    stageFormat cfg ora fl f =
      ⟨⟨false, "Format check failed: " ++ e⟩, f, [Cmd.formatCheck]⟩ := by
  simp [stageFormat, hdr, hg, he]

theorem stageFormat_pass {cfg : Config} {ora : PreOracle} {fl : Bool} {f : List Char}
    (hdr : cfg.dryRun = false)
    (hok : cfg.formatCheck = true → ora.formatRes = .ok ()) :
    stageFormat cfg ora fl f =
      ⟨(stageTest cfg ora fl f).resp, (stageTest cfg ora fl f).file,
        (if cfg.formatCheck then [Cmd.formatCheck] else []) ++
          (stageTest cfg ora fl f).cmds⟩ := by
  by_cases hg : cfg.formatCheck
  · simp [stageFormat, hdr, hg, hok hg]
  · simp [stageFormat, hg]

theorem stageAnalyzeStep_fail {cfg : Config} {ora : PreOracle} {fl : Bool} {f : List Char} {e : String}
    (hdr : cfg.dryRun = false) (hg : cfg.analyze = true)
    (he : ora.analyzeRes = .error e) :
    stageAnalyzeStep cfg ora fl f =
      ⟨⟨false, "Analysis failed: " ++ e⟩, f, [Cmd.analyze]⟩ := by
  simp [stageAnalyzeStep, hdr, hg, he]

theorem stageAnalyzeStep_pass {cfg : Config} {ora : PreOracle} {fl : Bool} {f : List Char}
    (hdr : cfg.dryRun = false)
    (hok : cfg.analyze = true → ora.analyzeRes = .ok ()) :
    stageAnalyzeStep cfg ora fl f =
      ⟨(stageFormat cfg ora fl f).resp, (stageFormat cfg ora fl f).file,
        (if cfg.analyze then [Cmd.analyze] else []) ++
          (stageFormat cfg ora fl f).cmds⟩ := by
  by_cases hg : cfg.analyze
  · simp [stageAnalyzeStep, hdr, hg, hok hg]
  · simp [stageAnalyzeStep, hg]

theorem executePrePublish_eq_stage {cfg : Config} {version : String} {ora : PreOracle}
    {file f' : List Char} {p : Pubspec}
    (hdr : cfg.dryRun = false) (hp : ora.parse = .ok p)
    (hf' : updStepRes cfg file version = .ok f') :
    executePrePublish cfg version ora file =
      stageAnalyzeStep cfg ora (IsFlutterPackage p) f' := by
  unfold updStepRes at hf'
  by_cases hu : cfg.updateVersion
  · rw [if_pos hu] at hf'
    simp only [String.toList] at hf'
    simp [executePrePublish, hp, hdr, hu, hf']
  · rw [if_neg hu] at hf'
    injection hf' with h
    subst h
    simp [executePrePublish, hp, hdr, hu]

/-- C3 (amended): in dry-run mode the PrePublish hook leaves the manifest file
unchanged, invokes no external command, succeeds whenever parsing succeeds, and
can only fail at the manifest load/parse step.  The returned message is the
generic success message `"Package validated successfully"` — the same message
as in real mode, the dry-run simulation notices appearing only in the log. -/
theorem prePublish_dryRun_frame :
    ∀ (cfg : Config) (version : String) (ora : PreOracle) (file : List Char),
      cfg.dryRun = true →
      ((executePrePublish cfg version ora file).file = file ∧
       (executePrePublish cfg version ora file).cmds = []) ∧
      (∀ p, ora.parse = .ok p →
        executePrePublish cfg version ora file =
          ⟨⟨true, "Package validated successfully"⟩, file, []⟩) ∧
      (∀ e, ora.parse = .error e →
        executePrePublish cfg version ora file =
          ⟨⟨false, "Failed to parse pubspec.yaml: " ++ e⟩, file, []⟩) ∧
      ((executePrePublish cfg version ora file).resp.success = false →
        ∃ e, ora.parse = .error e) := by
  intro cfg version ora file hdr
  have hstage : ∀ (fl : Bool) (f : List Char),
      stageAnalyzeStep cfg ora fl f = stageDone f := by
    intro fl f
    simp [stageAnalyzeStep, stageFormat, stageTest, stagePubDryRun, hdr, ite_self]
  cases hpp : ora.parse with
  | error e =>
    refine ⟨⟨?_, ?_⟩, ?_, ?_, ?_⟩ <;>
      simp [executePrePublish, hpp, hdr]
  | ok p =>
    refine ⟨⟨?_, ?_⟩, ?_, ?_, ?_⟩ <;>
      simp [executePrePublish, hpp, hdr, hstage, stageDone, ite_self]

/-- Witness for C3 at end-to-end scenario A: all gates enabled, dry-run true. -/
theorem prePublish_dryRun_frame_witness :
    executePrePublish (cfgAll true) "2.0.0" oraPreOk file0 =
      ⟨⟨true, "Package validated successfully"⟩, file0, []⟩ :=
  (prePublish_dryRun_frame (cfgAll true) "2.0.0" oraPreOk file0 rfl).2.1 pubspec0 rfl

/-- Counterexample for C3 as stated: the response of a fully-enabled dry-run
PrePublish run equals the response of the corresponding real-mode run — the
returned message is the fixed string `"Package validated successfully"`, so it
does not indicate that the steps were simulated. -/
theorem prePublish_dryRun_message_cex :
    (executePrePublish (cfgAll true) "2.0.0" oraPreOk file0).resp =
      (executePrePublish (cfgAll false) "2.0.0" oraPreOk file0).resp ∧
    (executePrePublish (cfgAll true) "2.0.0" oraPreOk file0).resp.message =
      "Package validated successfully" := by
  decide

/-- C4: in real (non-dry-run) mode, PrePublish fails fast: when an enabled
step fails, the hook returns an unsuccessful result whose message names the
failing step and carries the underlying cause, no later step's command is
invoked (the command trace stops at the failing step), and the version bump
already written by step 2 (`f'`) is not undone — it remains the file content
of the result. -/
theorem prePublish_fail_fast :
    ∀ (cfg : Config) (version : String) (ora : PreOracle) (file : List Char) (p : Pubspec),
      cfg.dryRun = false → ora.parse = .ok p →
      ((cfg.updateVersion = true → ∀ e, UpdateVersionModel file version.toList = .error e →
          executePrePublish cfg version ora file =
            ⟨⟨false, "Failed to update version: " ++ e⟩, file, []⟩) ∧
       (∀ f', updStepRes cfg file version = .ok f' →
         ((cfg.analyze = true → ∀ e, ora.analyzeRes = .error e →
             executePrePublish cfg version ora file =
               ⟨⟨false, "Analysis failed: " ++ e⟩, f', [Cmd.analyze]⟩) ∧
          ((cfg.analyze = true → ora.analyzeRes = .ok ()) →
            cfg.formatCheck = true → ∀ e, ora.formatRes = .error e →
            executePrePublish cfg version ora file =
              ⟨⟨false, "Format check failed: " ++ e⟩, f',
                (if cfg.analyze then [Cmd.analyze] else []) ++ [Cmd.formatCheck]⟩) ∧
          ((cfg.analyze = true → ora.analyzeRes = .ok ()) →
            (cfg.formatCheck = true → ora.formatRes = .ok ()) →
            cfg.test = true →
            ((IsFlutterPackage p = true → ∀ e, ora.flutterTestRes = .error e →
               executePrePublish cfg version ora file =
                 ⟨⟨false, "Flutter tests failed: " ++ e⟩, f',
                   (if cfg.analyze then [Cmd.analyze] else []) ++
                     (if cfg.formatCheck then [Cmd.formatCheck] else []) ++
                     [Cmd.flutterTest]⟩) ∧
             (IsFlutterPackage p = false → ∀ e, ora.testRes = .error e →
               executePrePublish cfg version ora file =
                 ⟨⟨false, "Tests failed: " ++ e⟩, f',
                   (if cfg.analyze then [Cmd.analyze] else []) ++
                     (if cfg.formatCheck then [Cmd.formatCheck] else []) ++
                     [Cmd.test cfg.testConfig]⟩))) ∧
          ((cfg.analyze = true → ora.analyzeRes = .ok ()) →
            (cfg.formatCheck = true → ora.formatRes = .ok ()) →
            (cfg.test = true →
              (if IsFlutterPackage p then ora.flutterTestRes else ora.testRes) = .ok ()) →
            cfg.dryRunValidate = true → ∀ e, ora.publishDryRunRes = .error e →
            executePrePublish cfg version ora file =
              ⟨⟨false, "Dry-run validation failed: " ++ e⟩, f',
                (if cfg.analyze then [Cmd.analyze] else []) ++
                  (if cfg.formatCheck then [Cmd.formatCheck] else []) ++
                  (if cfg.test then
                     (if IsFlutterPackage p then [Cmd.flutterTest]
                      else [Cmd.test cfg.testConfig]) else []) ++
                  [Cmd.publishDryRun]⟩)))) := by
  intro cfg version ora file p hdr hp
  constructor
  · intro hu e he
    simp only [String.toList] at he
    simp [executePrePublish, hp, hdr, hu, he]
  · intro f' hf'
    rw [executePrePublish_eq_stage hdr hp hf']
    refine ⟨?_, ?_, ?_, ?_⟩
    · intro ha e he
      exact stageAnalyzeStep_fail hdr ha he
    · intro haok hfc e he
      rw [stageAnalyzeStep_pass hdr haok, stageFormat_fail hdr hfc he]
    · intro haok hfok ht
      constructor
      · intro hfl e he
        rw [stageAnalyzeStep_pass hdr haok, stageFormat_pass hdr hfok, hfl,
          stageTest_fail_flutter hdr ht he]
        simp
      · intro hfl e he
        rw [stageAnalyzeStep_pass hdr haok, stageFormat_pass hdr hfok, hfl,
          stageTest_fail_vm hdr ht he]
        simp
    · intro haok hfok htok hg e he
      rw [stageAnalyzeStep_pass hdr haok, stageFormat_pass hdr hfok,
        stageTest_pass hdr htok, stagePubDryRun_fail hdr hg he]
      simp [hg]

/-- Witness for C4: all gates enabled, real mode, with `dart analyze` failing
after a successful version bump; the bumped file is kept and only the analyze
command ran. -/
theorem prePublish_fail_fast_witness :
    executePrePublish (cfgAll false) "2.0.0" oraPreAnalyzeFail file0 =
      ⟨⟨false, "Analysis failed: issues found"⟩,
        "name: p\nversion: 2.0.0\n".toList, [Cmd.analyze]⟩ := by
  have h := (prePublish_fail_fast (cfgAll false) "2.0.0" oraPreAnalyzeFail file0 pubspec0
    rfl rfl).2 "name: p\nversion: 2.0.0\n".toList (by rfl)
  exact (h.1 rfl "issues found" rfl).trans (by decide)

/-- C8: PostPublish credential resolution prefers a non-empty configured access
token (building ephemeral credentials from it, without touching the store);
only with an empty configured token is a store load attempted, and a failing
load is swallowed — the hook still proceeds to the publish step (with absent
credentials) and the response never depends on the load outcome. -/
theorem postPublish_credential_resolution :
    ∀ (cfg : Config) (version : String) (ora : PostOracle) (p : Pubspec),
      ora.parse = .ok p →
      ((cfg.accessToken ≠ "" →
         (executePostPublish cfg version ora).evs =
           (if cfg.dryRun then []
            else [PostEv.publish (some (CreateCredentialsFromToken cfg.accessToken))
              cfg.force (if cfg.hostedURL ≠ "" then some cfg.hostedURL else none)])) ∧
       (cfg.accessToken = "" →
         (executePostPublish cfg version ora).evs =
           PostEv.loadCreds cfg.credentialsPath ::
             (if cfg.dryRun then []
              else [PostEv.publish ora.load.toOption cfg.force
                (if cfg.hostedURL ≠ "" then some cfg.hostedURL else none)])) ∧
       (∀ lr : Except String PubCredentials,
         (executePostPublish cfg version { ora with load := lr }).resp =
           (executePostPublish cfg version ora).resp)) := by
  intro cfg version ora p hp
  refine ⟨?_, ?_, ?_⟩
  · intro ht
    by_cases hd : cfg.dryRun
    · simp [executePostPublish, hp, ht, hd]
    · cases hpr : ora.publishRes <;>
        simp [executePostPublish, hp, ht, hd, hpr]
  · intro ht
    by_cases hd : cfg.dryRun
    · simp [executePostPublish, hp, ht, hd]
    · cases hpr : ora.publishRes <;>
        simp [executePostPublish, hp, ht, hd, hpr]
  · intro lr
    by_cases ht : cfg.accessToken = ""
    · by_cases hd : cfg.dryRun
      · simp [executePostPublish, hp, ht, hd]
      · cases hpr : ora.publishRes <;>
          simp [executePostPublish, hp, ht, hd, hpr]
    · by_cases hd : cfg.dryRun
      · simp [executePostPublish, hp, ht, hd]
      · cases hpr : ora.publishRes <;>
          simp [executePostPublish, hp, ht, hd, hpr]

/-- Witness for C8 (end-to-end scenario D flavor): empty configured token, an
unreadable credentials store, real mode, successful publish — the load is
attempted, its failure is swallowed, and publishing proceeds with no
credentials. -/
theorem postPublish_credential_resolution_witness :
    (executePostPublish (cfgAll false) "2.0.0" oraPost0).evs =
      [PostEv.loadCreds "", PostEv.publish none true none] ∧
    (executePostPublish (cfgAll false) "2.0.0" oraPost0).resp =
      ⟨true, "Published p@2.0.0 to pub.dev"⟩ := by
  have h := postPublish_credential_resolution (cfgAll false) "2.0.0" oraPost0 pubspec0 rfl
  refine ⟨(h.2.1 rfl).trans (by decide), ?_⟩
  have h3 := h.2.2 (.ok credsTok10)
  decide

/-! ## Lemmas about the version-pattern matcher -/

theorem matchAt_some_bound {s : List Char} {L : Nat} (h : matchAt s = some L) :
    8 ≤ L := by
  unfold matchAt at h
  split at h
  · cases ht : tailMatch (s.drop 8) with
    | none => rw [ht] at h; simp at h
    | some w => rw [ht] at h; simp at h; omega
  · simp at h

theorem replaceAuxF_nil (tmpl : List Char) (fuel : Nat) (a : Bool) :
    replaceAuxF tmpl fuel [] a = [] := by
  cases fuel <;> simp [replaceAuxF]

theorem replaceAuxF_cons_eq (tmpl : List Char) (fuel : Nat) (c : Char)
    (rest : List Char) (a : Bool) :
    replaceAuxF tmpl (fuel + 1) (c :: rest) a =
      match (if a then matchAt (c :: rest) else none) with
      | some L =>
        expandTmpl ((c :: rest).take L) tmpl ++
          replaceAuxF tmpl fuel ((c :: rest).drop L) false
      | none => c :: replaceAuxF tmpl fuel rest (c == '\n') := rfl

theorem replaceAuxF_fuel_irrel (tmpl : List Char) :
    ∀ (fuel₁ : Nat) (s : List Char) (a : Bool) (fuel₂ : Nat),
      s.length ≤ fuel₁ → s.length ≤ fuel₂ →
      replaceAuxF tmpl fuel₁ s a = replaceAuxF tmpl fuel₂ s a := by
  intro fuel₁
  induction fuel₁ with
  | zero =>
    intro s a fuel₂ h1 _
    have hs : s = [] := List.length_eq_zero.mp (Nat.le_zero.mp h1)
    subst hs
    simp [replaceAuxF_nil]
  | succ f ih =>
    intro s a fuel₂ h1 h2
    cases s with
    | nil => simp [replaceAuxF_nil]
    | cons c rest =>
      cases fuel₂ with
      | zero =>
        simp only [List.length_cons] at h2
        omega
      | succ f₂ =>
        simp only [List.length_cons] at h1 h2
        rw [replaceAuxF_cons_eq, replaceAuxF_cons_eq]
        cases a with
        | false =>
          show c :: replaceAuxF tmpl f rest (c == '\n') =
            c :: replaceAuxF tmpl f₂ rest (c == '\n')
          congr 1
          exact ih rest _ f₂ (by omega) (by omega)
        | true =>
          cases hm : matchAt (c :: rest) with
          | none =>
            show c :: replaceAuxF tmpl f rest (c == '\n') =
              c :: replaceAuxF tmpl f₂ rest (c == '\n')
            congr 1
            exact ih rest _ f₂ (by omega) (by omega)
          | some L =>
            have hL := matchAt_some_bound hm
            show expandTmpl ((c :: rest).take L) tmpl ++
                replaceAuxF tmpl f ((c :: rest).drop L) false =
              expandTmpl ((c :: rest).take L) tmpl ++
                replaceAuxF tmpl f₂ ((c :: rest).drop L) false
            congr 1
            have hlen : ((c :: rest).drop L).length = rest.length + 1 - L := by
              simp
            apply ih
            · rw [hlen]; omega
            · rw [hlen]; omega

theorem replaceAuxF_copy_line (tmpl : List Char) :
    ∀ (l rest : List Char) (fuel : Nat),
      '\n' ∉ l → (l ++ '\n' :: rest).length ≤ fuel →
      replaceAuxF tmpl fuel (l ++ '\n' :: rest) false =
        l ++ '\n' :: replaceAuxF tmpl rest.length rest true := by
  intro l
  induction l with
  | nil =>
    intro rest fuel _ hf
    simp only [List.nil_append, List.length_cons] at hf ⊢
    cases fuel with
    | zero => omega
    | succ f =>
      rw [replaceAuxF_cons_eq]
      show '\n' :: replaceAuxF tmpl f rest ('\n' == '\n') =
        '\n' :: replaceAuxF tmpl rest.length rest true
      rw [show ('\n' == '\n') = true from rfl]
      congr 1
      exact replaceAuxF_fuel_irrel tmpl f rest true rest.length (by omega) (le_refl _)
  | cons c l' ih =>
    intro rest fuel h hf
    have hc : c ≠ '\n' := fun hcc => h (hcc ▸ List.mem_cons_self c l')
    have hl' : '\n' ∉ l' := fun hm => h (List.mem_cons_of_mem c hm)
    simp only [List.cons_append, List.length_cons] at hf ⊢
    cases fuel with
    | zero => omega
    | succ f =>
      rw [replaceAuxF_cons_eq]
      show c :: replaceAuxF tmpl f (l' ++ '\n' :: rest) (c == '\n') =
        c :: (l' ++ '\n' :: replaceAuxF tmpl rest.length rest true)
      rw [show (c == '\n') = false by simp [hc]]
      congr 1
      exact ih rest f hl' (by omega)

theorem replaceAuxF_copy_eof (tmpl : List Char) :
    ∀ (l : List Char) (fuel : Nat), '\n' ∉ l → l.length ≤ fuel →
      replaceAuxF tmpl fuel l false = l := by
  intro l
  induction l with
  | nil => intro fuel _ _; exact replaceAuxF_nil tmpl fuel false
  | cons c l' ih =>
    intro fuel h hf
    have hc : c ≠ '\n' := fun hcc => h (hcc ▸ List.mem_cons_self c l')
    have hl' : '\n' ∉ l' := fun hm => h (List.mem_cons_of_mem c hm)
    simp only [List.length_cons] at hf
    cases fuel with
    | zero => omega
    | succ f =>
      rw [replaceAuxF_cons_eq]
      show c :: replaceAuxF tmpl f l' (c == '\n') = c :: l'
      rw [show (c == '\n') = false by simp [hc]]
      congr 1
      exact ih f hl' (by omega)

theorem nonNlRun_append_no_nl :
    ∀ (a b : List Char), '\n' ∉ a → nonNlRun (a ++ b) = a.length + nonNlRun b := by
  intro a
  induction a with
  | nil => intro b _; simp
  | cons c a' ih =>
    intro b h
    have hc : c ≠ '\n' := fun hcc => h (hcc ▸ List.mem_cons_self c a')
    have ha' : '\n' ∉ a' := fun hm => h (List.mem_cons_of_mem c hm)
    simp only [List.cons_append, List.length_cons]
    rw [nonNlRun, if_neg (by simp [hc]), ih b ha']
    omega

theorem nonNlRun_nl_or_nil (b : List Char) (h : b = [] ∨ ∃ r, b = '\n' :: r) :
    nonNlRun b = 0 := by
  rcases h with rfl | ⟨r, rfl⟩
  · rfl
  · rw [nonNlRun, if_pos (by decide)]

theorem wsRunLen_append_stop :
    ∀ (a b : List Char), (∃ c ∈ a, wsChar c = false) →
      wsRunLen (a ++ b) = wsRunLen a := by
  intro a
  induction a with
  | nil =>
    intro b h
    rcases h with ⟨c, hc, _⟩
    simp at hc
  | cons c a' ih =>
    intro b h
    by_cases hw : wsChar c
    · have h' : ∃ d ∈ a', wsChar d = false := by
        rcases h with ⟨d, hd, hdw⟩
        rcases List.mem_cons.mp hd with rfl | hd'
        · rw [hw] at hdw; cases hdw
        · exact ⟨d, hd', hdw⟩
      simp only [List.cons_append]
      rw [wsRunLen, if_pos hw, wsRunLen, if_pos hw, ih b h']
    · simp only [List.cons_append]
      rw [wsRunLen, if_neg hw, wsRunLen, if_neg hw]

theorem wsRunLen_lt :
    ∀ (a : List Char), (∃ c ∈ a, wsChar c = false) → wsRunLen a < a.length := by
  intro a
  induction a with
  | nil =>
    intro h
    rcases h with ⟨c, hc, _⟩
    simp at hc
  | cons c a' ih =>
    intro h
    by_cases hw : wsChar c
    · have h' : ∃ d ∈ a', wsChar d = false := by
        rcases h with ⟨d, hd, hdw⟩
        rcases List.mem_cons.mp hd with rfl | hd'
        · rw [hw] at hdw; cases hdw
        · exact ⟨d, hd', hdw⟩
      rw [wsRunLen, if_pos hw]
      simp only [List.length_cons]
      have := ih h'
      omega
    · rw [wsRunLen, if_neg hw]
      simp

theorem head_drop_wsRunLen :
    ∀ (t : List Char), wsRunLen t < t.length →
      ∃ c, (t.drop (wsRunLen t)).head? = some c ∧ wsChar c = false := by
  intro t
  induction t with
  | nil => intro h; simp at h
  | cons c t' ih =>
    intro h
    by_cases hw : wsChar c
    · have hlt : wsRunLen t' < t'.length := by
        rw [wsRunLen, if_pos hw] at h
        simp only [List.length_cons] at h
        omega
      rcases ih hlt with ⟨d, hd1, hd2⟩
      refine ⟨d, ?_, hd2⟩
      rw [wsRunLen, if_pos hw, List.drop_succ_cons]
      exact hd1
    · refine ⟨c, ?_, by simpa using hw⟩
      rw [wsRunLen, if_neg hw]
      rfl

theorem tailMatchAux_hit {t : List Char} {m : Nat} {c : Char}
    (hc : (t.drop m).head? = some c) (hnl : c ≠ '\n') :
    tailMatchAux t m = some (m + nonNlRun (t.drop m)) := by
  cases m with
  | zero =>
    rw [tailMatchAux]
    simp only [List.drop_zero] at hc ⊢
    rw [hc]
    show (if (c == '\n') = true then none else some (nonNlRun t)) =
      some (0 + nonNlRun t)
    rw [if_neg (by simp [hnl]), Nat.zero_add]
  | succ k =>
    rw [tailMatchAux, hc]
    show (if (c == '\n') = true then tailMatchAux t k
        else some (k + 1 + nonNlRun (t.drop (k + 1)))) =
      some (k + 1 + nonNlRun (t.drop (k + 1)))
    rw [if_neg (by simp [hnl])]

theorem versionKey_length : versionKey.length = 8 := by decide

theorem length_ge_8_of_take {l : List Char} (hk : l.take 8 = versionKey) :
    8 ≤ l.length := by
  have h1 := congrArg List.length hk
  rw [List.length_take, versionKey_length] at h1
  by_cases hle : 8 ≤ l.length
  · exact hle
  · rw [Nat.min_eq_right (le_of_not_le hle)] at h1
    omega

theorem take8_of_append {l suffix : List Char} (h8 : 8 ≤ l.length) :
    (l ++ suffix).take 8 = l.take 8 := by
  rw [List.take_append_eq_append_take]
  simp [Nat.sub_eq_zero_of_le h8]

theorem drop8_of_append {l suffix : List Char} (h8 : 8 ≤ l.length) :
    (l ++ suffix).drop 8 = l.drop 8 ++ suffix := by
  rw [List.drop_append_eq_append_drop]
  simp [Nat.sub_eq_zero_of_le h8]

theorem matchAt_line {l suffix : List Char}
    (hnl : '\n' ∉ l) (hk : l.take 8 = versionKey)
    (hany : (l.drop 8).any (fun c => !wsChar c) = true)
    (hsuf : suffix = [] ∨ ∃ r, suffix = '\n' :: r) :
    matchAt (l ++ suffix) = some l.length := by
  have h8 : 8 ≤ l.length := length_ge_8_of_take hk
  have htake : (l ++ suffix).take 8 = versionKey := by rw [take8_of_append h8, hk]
  have hdrop : (l ++ suffix).drop 8 = l.drop 8 ++ suffix := drop8_of_append h8
  have hex : ∃ c ∈ l.drop 8, wsChar c = false := by
    rcases List.any_eq_true.mp hany with ⟨c, hc, hcw⟩
    exact ⟨c, hc, by simpa using hcw⟩
  have hnl8 : '\n' ∉ l.drop 8 := fun hm => hnl (List.mem_of_mem_drop hm)
  have hws : wsRunLen (l.drop 8 ++ suffix) = wsRunLen (l.drop 8) :=
    wsRunLen_append_stop (l.drop 8) suffix hex
  have hlt : wsRunLen (l.drop 8) < (l.drop 8).length := wsRunLen_lt (l.drop 8) hex
  have hlt2 : wsRunLen (l.drop 8 ++ suffix) < (l.drop 8 ++ suffix).length := by
    rw [hws, List.length_append]
    omega
  rcases head_drop_wsRunLen (l.drop 8 ++ suffix) hlt2 with ⟨c, hch, hcw⟩
  have hcnl : c ≠ '\n' := by
    intro hcc
    rw [hcc] at hcw
    exact absurd hcw (by decide)
  have hdrop2 : (l.drop 8 ++ suffix).drop (wsRunLen (l.drop 8)) =
      (l.drop 8).drop (wsRunLen (l.drop 8)) ++ suffix := by
    rw [List.drop_append_eq_append_drop,
      Nat.sub_eq_zero_of_le (le_of_lt hlt), List.drop_zero]
  have hnn : nonNlRun ((l.drop 8 ++ suffix).drop (wsRunLen (l.drop 8))) =
      (l.drop 8).length - wsRunLen (l.drop 8) := by
    rw [hdrop2,
      nonNlRun_append_no_nl _ _ (fun hm => hnl8 (List.mem_of_mem_drop hm)),
      nonNlRun_nl_or_nil suffix hsuf]
    simp only [List.length_drop, Nat.add_zero]
  have htail : tailMatch (l.drop 8 ++ suffix) = some ((l.drop 8).length) := by
    unfold tailMatch
    rw [hws]
    rw [hws] at hch
    rw [tailMatchAux_hit hch hcnl, hnn]
    congr 1
    omega
  unfold matchAt
  rw [if_pos htake, hdrop, htail]
  simp only [Option.map_some']
  congr 1
  rw [List.length_drop]
  omega

theorem matchAt_none_of_take {l suffix : List Char}
    (hk : ¬ l.take 8 = versionKey)
    (hsuf : suffix = [] ∨ ∃ r, suffix = '\n' :: r) :
    matchAt (l ++ suffix) = none := by
  have hne : ¬ (l ++ suffix).take 8 = versionKey := by
    intro hcontra
    by_cases h8 : 8 ≤ l.length
    · rw [take8_of_append h8] at hcontra
      exact hk hcontra
    · push_neg at h8
      rcases hsuf with rfl | ⟨r, rfl⟩
      · rw [List.append_nil] at hcontra
        exact hk hcontra
      · have hmem : '\n' ∈ (l ++ '\n' :: r).take 8 := by
          rw [List.take_append_eq_append_take]
          refine List.mem_append.mpr (Or.inr ?_)
          cases hk2 : 8 - l.length with
          | zero => omega
          | succ k =>
            rw [List.take_succ_cons]
            exact List.mem_cons_self _ _
        rw [hcontra] at hmem
        exact absurd hmem (by decide)
  unfold matchAt
  rw [if_neg hne]

/-! ## Scanning lemmas: one line at a time -/

theorem replaceAuxF_start_match (tmpl : List Char) {l : List Char} (rest : List Char)
    (fuel : Nat) (hnl : '\n' ∉ l) (hk : l.take 8 = versionKey)
    (hany : (l.drop 8).any (fun c => !wsChar c) = true)
    (hf : (l ++ '\n' :: rest).length ≤ fuel) :
    replaceAuxF tmpl fuel (l ++ '\n' :: rest) true =
      expandTmpl l tmpl ++ '\n' :: replaceAuxF tmpl rest.length rest true := by
  have hm : matchAt (l ++ '\n' :: rest) = some l.length :=
    matchAt_line hnl hk hany (Or.inr ⟨_, rfl⟩)
  have h8 : 8 ≤ l.length := length_ge_8_of_take hk
  cases hl : l with
  | nil => rw [hl] at h8; simp at h8
  | cons c l' =>
    subst hl
    simp only [List.cons_append, List.length_cons] at hf hm ⊢
    simp only [List.length_append, List.length_cons] at hf
    cases fuel with
    | zero => omega
    | succ f =>
      rw [replaceAuxF_cons_eq, hm]
      show expandTmpl ((c :: (l' ++ '\n' :: rest)).take (l'.length + 1)) tmpl ++
          replaceAuxF tmpl f ((c :: (l' ++ '\n' :: rest)).drop (l'.length + 1)) false =
        expandTmpl (c :: l') tmpl ++ '\n' :: replaceAuxF tmpl rest.length rest true
      have htk : (c :: (l' ++ '\n' :: rest)).take (l'.length + 1) = c :: l' := by
        rw [List.take_succ_cons]
        congr 1
        exact List.take_left l' ('\n' :: rest)
      have hdp : (c :: (l' ++ '\n' :: rest)).drop (l'.length + 1) = '\n' :: rest := by
        rw [List.drop_succ_cons]
        exact List.drop_left l' ('\n' :: rest)
      rw [htk, hdp]
      congr 1
      have := replaceAuxF_copy_line tmpl [] rest f (by simp) (by simp; omega)
      simpa using this

theorem replaceAuxF_start_nomatch (tmpl : List Char) {l : List Char} (rest : List Char)
    (fuel : Nat) (hnl : '\n' ∉ l)
    (hm : matchAt (l ++ '\n' :: rest) = none)
    (hf : (l ++ '\n' :: rest).length ≤ fuel) :
    replaceAuxF tmpl fuel (l ++ '\n' :: rest) true =
      l ++ '\n' :: replaceAuxF tmpl rest.length rest true := by
  cases hl : l with
  | nil =>
    subst hl
    simp only [List.nil_append, List.length_cons] at hf hm ⊢
    cases fuel with
    | zero => omega
    | succ f =>
      rw [replaceAuxF_cons_eq, hm]
      show '\n' :: replaceAuxF tmpl f rest ('\n' == '\n') =
        '\n' :: replaceAuxF tmpl rest.length rest true
      rw [show ('\n' == '\n') = true from rfl]
      congr 1
      exact replaceAuxF_fuel_irrel tmpl f rest true rest.length (by omega) (le_refl _)
  | cons c l' =>
    subst hl
    have hc : c ≠ '\n' := fun hcc => hnl (hcc ▸ List.mem_cons_self c l')
    have hl' : '\n' ∉ l' := fun hmem => hnl (List.mem_cons_of_mem c hmem)
    simp only [List.cons_append, List.length_cons] at hf hm ⊢
    simp only [List.length_append, List.length_cons] at hf
    cases fuel with
    | zero => omega
    | succ f =>
      rw [replaceAuxF_cons_eq, hm]
      show c :: replaceAuxF tmpl f (l' ++ '\n' :: rest) (c == '\n') =
        c :: (l' ++ '\n' :: replaceAuxF tmpl rest.length rest true)
      rw [show (c == '\n') = false by simp [hc]]
      congr 1
      exact replaceAuxF_copy_line tmpl l' rest f hl' (by simp; omega)

theorem replaceAuxF_last_match (tmpl : List Char) {l : List Char} (fuel : Nat)
    (hnl : '\n' ∉ l) (hk : l.take 8 = versionKey)
    (hany : (l.drop 8).any (fun c => !wsChar c) = true)
    (hf : l.length ≤ fuel) :
    replaceAuxF tmpl fuel l true = expandTmpl l tmpl := by
  have hm : matchAt l = some l.length := by
    have := matchAt_line hnl hk hany (Or.inl rfl)
    rwa [List.append_nil] at this
  have h8 : 8 ≤ l.length := length_ge_8_of_take hk
  cases hl : l with
  | nil => rw [hl] at h8; simp at h8
  | cons c l' =>
    subst hl
    simp only [List.length_cons] at hf hm ⊢
    cases fuel with
    | zero => omega
    | succ f =>
      rw [replaceAuxF_cons_eq, hm]
      show expandTmpl ((c :: l').take (l'.length + 1)) tmpl ++
          replaceAuxF tmpl f ((c :: l').drop (l'.length + 1)) false =
        expandTmpl (c :: l') tmpl
      rw [show l'.length + 1 = (c :: l').length from rfl, List.take_length,
        List.drop_length, replaceAuxF_nil, List.append_nil]

theorem replaceAuxF_last_nomatch (tmpl : List Char) {l : List Char} (fuel : Nat)
    (hnl : '\n' ∉ l) (hm : matchAt l = none) (hf : l.length ≤ fuel) :
    replaceAuxF tmpl fuel l true = l := by
  cases hl : l with
  | nil => exact replaceAuxF_nil tmpl fuel true
  | cons c l' =>
    subst hl
    have hc : c ≠ '\n' := fun hcc => hnl (hcc ▸ List.mem_cons_self c l')
    have hl' : '\n' ∉ l' := fun hmem => hnl (List.mem_cons_of_mem c hmem)
    simp only [List.length_cons] at hf
    cases fuel with
    | zero => omega
    | succ f =>
      rw [replaceAuxF_cons_eq, hm]
      show c :: replaceAuxF tmpl f l' (c == '\n') = c :: l'
      rw [show (c == '\n') = false by simp [hc]]
      congr 1
      exact replaceAuxF_copy_eof tmpl l' f hl' (by omega)

/-! ## Scanning lemmas for `hasVersionMatch` -/

theorem hasVersionMatch_cons (c : Char) (rest : List Char) (a : Bool) :
    hasVersionMatch (c :: rest) a =
      ((a && (matchAt (c :: rest)).isSome) || hasVersionMatch rest (c == '\n')) := by
  rw [hasVersionMatch]

theorem hasVersionMatch_nil (a : Bool) : hasVersionMatch [] a = false := by
  cases a <;> decide

theorem hasVersionMatch_false_line :
    ∀ (l rest : List Char), '\n' ∉ l →
      hasVersionMatch (l ++ '\n' :: rest) false = hasVersionMatch rest true := by
  intro l
  induction l with
  | nil =>
    intro rest _
    rw [List.nil_append, hasVersionMatch_cons]
    simp
  | cons c l' ih =>
    intro rest h
    have hc : c ≠ '\n' := fun hcc => h (hcc ▸ List.mem_cons_self c l')
    have hl' : '\n' ∉ l' := fun hm => h (List.mem_cons_of_mem c hm)
    rw [List.cons_append, hasVersionMatch_cons,
      show (c == '\n') = false by simp [hc], ih rest hl']
    simp

theorem hasVersionMatch_false_eof :
    ∀ (l : List Char), '\n' ∉ l → hasVersionMatch l false = false := by
  intro l
  induction l with
  | nil => intro _; exact hasVersionMatch_nil false
  | cons c l' ih =>
    intro h
    have hc : c ≠ '\n' := fun hcc => h (hcc ▸ List.mem_cons_self c l')
    have hl' : '\n' ∉ l' := fun hm => h (List.mem_cons_of_mem c hm)
    rw [hasVersionMatch_cons, show (c == '\n') = false by simp [hc], ih hl']
    simp

theorem hasVersionMatch_true_line {l : List Char} (rest : List Char) (hnl : '\n' ∉ l) :
    hasVersionMatch (l ++ '\n' :: rest) true =
      ((matchAt (l ++ '\n' :: rest)).isSome || hasVersionMatch rest true) := by
  cases hl : l with
  | nil =>
    subst hl
    rw [List.nil_append, hasVersionMatch_cons]
    simp
  | cons c l' =>
    subst hl
    have hc : c ≠ '\n' := fun hcc => hnl (hcc ▸ List.mem_cons_self c l')
    have hl' : '\n' ∉ l' := fun hm => hnl (List.mem_cons_of_mem c hm)
    rw [List.cons_append, hasVersionMatch_cons,
      show (c == '\n') = false by simp [hc], hasVersionMatch_false_line l' rest hl']
    simp

theorem hasVersionMatch_true_eof {l : List Char} (hnl : '\n' ∉ l) :
    hasVersionMatch l true = (matchAt l).isSome := by
  cases hl : l with
  | nil =>
    subst hl
    rw [hasVersionMatch_nil]
    decide
  | cons c l' =>
    subst hl
    have hc : c ≠ '\n' := fun hcc => hnl (hcc ▸ List.mem_cons_self c l')
    have hl' : '\n' ∉ l' := fun hm => hnl (List.mem_cons_of_mem c hm)
    rw [hasVersionMatch_cons, show (c == '\n') = false by simp [hc],
      hasVersionMatch_false_eof l' hl']
    simp

/-! ## Structure of `splitNl` and `joinNl` -/

theorem joinNl_cons (l l2 : List Char) (ls : List (List Char)) :
    joinNl (l :: l2 :: ls) = l ++ '\n' :: joinNl (l2 :: ls) := rfl

theorem splitNl_ne_nil : ∀ s : List Char, splitNl s ≠ [] := by
  intro s
  cases s with
  | nil => simp [splitNl]
  | cons c rest =>
    by_cases hc : c = '\n'
    · simp [splitNl, hc]
    · cases h : splitNl rest with
      | nil => simp [splitNl, hc, h]
      | cons l0 ls0 => simp [splitNl, hc, h]

theorem splitNl_no_nl : ∀ (s : List Char), ∀ l ∈ splitNl s, '\n' ∉ l := by
  intro s
  induction s with
  | nil =>
    intro l hl
    simp [splitNl] at hl
    subst hl
    simp
  | cons c rest ih =>
    intro l hl
    by_cases hc : c = '\n'
    · rw [splitNl, if_pos hc] at hl
      rcases List.mem_cons.mp hl with rfl | hl'
      · simp
      · exact ih l hl'
    · cases h : splitNl rest with
      | nil => exact absurd h (splitNl_ne_nil rest)
      | cons l0 ls0 =>
        rw [splitNl, if_neg hc, h] at hl
        rcases List.mem_cons.mp hl with rfl | hl'
        · intro hmem
          rcases List.mem_cons.mp hmem with hm1 | hm2
          · exact hc hm1.symm
          · exact ih l0 (h ▸ List.mem_cons_self _ _) hm2
        · exact ih l (h ▸ List.mem_cons_of_mem _ hl')

theorem joinNl_splitNl : ∀ s : List Char, joinNl (splitNl s) = s := by
  intro s
  induction s with
  | nil => rfl
  | cons c rest ih =>
    by_cases hc : c = '\n'
    · subst hc
      rw [splitNl, if_pos rfl]
      rcases hsp : splitNl rest with _ | ⟨l0, ls0⟩
      · exact absurd hsp (splitNl_ne_nil rest)
      · rw [hsp] at ih
        show '\n' :: joinNl (l0 :: ls0) = '\n' :: rest
        rw [ih]
    · rcases hsp : splitNl rest with _ | ⟨l0, ls0⟩
      · exact absurd hsp (splitNl_ne_nil rest)
      · rw [splitNl, if_neg hc, hsp]
        rw [hsp] at ih
        cases ls0 with
        | nil =>
          show c :: l0 = c :: rest
          rw [show joinNl [l0] = l0 from rfl] at ih
          rw [ih]
        | cons l1 ls1 =>
          rw [joinNl_cons, List.cons_append]
          rw [joinNl_cons] at ih
          rw [ih]

/-! ## Join-level characterizations -/

theorem replace_join (tmpl : List Char) :
    ∀ ls : List (List Char),
      (∀ l ∈ ls, '\n' ∉ l) →
      (∀ l ∈ ls, l.take 8 = versionKey → (l.drop 8).any (fun c => !wsChar c) = true) →
      replaceVersionAll tmpl (joinNl ls) = joinNl (ls.map (mapLine tmpl)) := by
  intro ls
  induction ls with
  | nil =>
    intro _ _
    show replaceVersionAll tmpl [] = []
    unfold replaceVersionAll
    exact replaceAuxF_nil tmpl 0 true
  | cons l ls' ih =>
    intro hnl hH
    have hl : '\n' ∉ l := hnl l (List.mem_cons_self _ _)
    cases ls' with
    | nil =>
      show replaceVersionAll tmpl l = joinNl [mapLine tmpl l]
      show replaceVersionAll tmpl l = mapLine tmpl l
      unfold replaceVersionAll
      by_cases hk : l.take 8 = versionKey
      · have hany := hH l (List.mem_cons_self _ _) hk
        rw [replaceAuxF_last_match tmpl l.length hl hk hany (le_refl _)]
        rw [mapLine, if_pos (by simp [lineVersionMatch, hk, hany])]
      · have hm : matchAt l = none := by
          have := matchAt_none_of_take hk (Or.inl rfl)
          rwa [List.append_nil] at this
        rw [replaceAuxF_last_nomatch tmpl l.length hl hm (le_refl _)]
        rw [mapLine, if_neg (by simp [lineVersionMatch, hk])]
    | cons l2 ls'' =>
      have hnl' : ∀ x ∈ l2 :: ls'', '\n' ∉ x := fun x hx => hnl x (List.mem_cons_of_mem l hx)
      have hH' : ∀ x ∈ l2 :: ls'', x.take 8 = versionKey →
          (x.drop 8).any (fun c => !wsChar c) = true :=
        fun x hx => hH x (List.mem_cons_of_mem l hx)
      have ihr := ih hnl' hH'
      rw [joinNl_cons]
      show replaceVersionAll tmpl (l ++ '\n' :: joinNl (l2 :: ls'')) =
        joinNl (mapLine tmpl l :: (l2 :: ls'').map (mapLine tmpl))
      unfold replaceVersionAll
      by_cases hk : l.take 8 = versionKey
      · have hany := hH l (List.mem_cons_self _ _) hk
        rw [replaceAuxF_start_match tmpl (joinNl (l2 :: ls'')) _ hl hk hany (le_refl _)]
        unfold replaceVersionAll at ihr
        rw [ihr]
        have hml : mapLine tmpl l = expandTmpl l tmpl := by
          rw [mapLine, if_pos (by simp [lineVersionMatch, hk, hany])]
        rw [hml]
        rfl
      · have hm : matchAt (l ++ '\n' :: joinNl (l2 :: ls'')) = none :=
          matchAt_none_of_take hk (Or.inr ⟨_, rfl⟩)
        rw [replaceAuxF_start_nomatch tmpl (joinNl (l2 :: ls'')) _ hl hm (le_refl _)]
        unfold replaceVersionAll at ihr
        rw [ihr]
        have hml : mapLine tmpl l = l := by
          rw [mapLine, if_neg (by simp [lineVersionMatch, hk])]
        rw [hml]
        rfl

theorem hasMatch_join_true :
    ∀ ls : List (List Char),
      (∀ l ∈ ls, '\n' ∉ l) →
      (∀ l ∈ ls, l.take 8 = versionKey → (l.drop 8).any (fun c => !wsChar c) = true) →
      (∃ l ∈ ls, l.take 8 = versionKey) →
      hasVersionMatch (joinNl ls) true = true := by
  intro ls
  induction ls with
  | nil =>
    intro _ _ hex
    rcases hex with ⟨l, hl, _⟩
    simp at hl
  | cons l ls' ih =>
    intro hnl hH hex
    have hl : '\n' ∉ l := hnl l (List.mem_cons_self _ _)
    cases ls' with
    | nil =>
      rcases hex with ⟨x, hx, hxk⟩
      rcases List.mem_cons.mp hx with rfl | hx'
      · show hasVersionMatch (joinNl [x]) true = true
        show hasVersionMatch x true = true
        rw [hasVersionMatch_true_eof hl]
        have hany := hH x (List.mem_cons_self _ _) hxk
        have hm : matchAt x = some x.length := by
          have := matchAt_line hl hxk hany (Or.inl rfl)
          rwa [List.append_nil] at this
        rw [hm]
        rfl
      · simp at hx'
    | cons l2 ls'' =>
      rw [joinNl_cons, hasVersionMatch_true_line _ hl]
      rcases hex with ⟨x, hx, hxk⟩
      rcases List.mem_cons.mp hx with rfl | hx'
      · have hany := hH x (List.mem_cons_self _ _) hxk
        rw [matchAt_line hl hxk hany (Or.inr ⟨_, rfl⟩)]
        rfl
      · have hnl' : ∀ y ∈ l2 :: ls'', '\n' ∉ y :=
          fun y hy => hnl y (List.mem_cons_of_mem l hy)
        have hH' : ∀ y ∈ l2 :: ls'', y.take 8 = versionKey →
            (y.drop 8).any (fun c => !wsChar c) = true :=
          fun y hy => hH y (List.mem_cons_of_mem l hy)
        rw [ih hnl' hH' ⟨x, hx', hxk⟩]
        simp

theorem hasMatch_join_false :
    ∀ ls : List (List Char),
      (∀ l ∈ ls, '\n' ∉ l) →
      (∀ l ∈ ls, ¬ l.take 8 = versionKey) →
      hasVersionMatch (joinNl ls) true = false := by
  intro ls
  induction ls with
  | nil =>
    intro _ _
    exact hasVersionMatch_nil true
  | cons l ls' ih =>
    intro hnl hk
    have hl : '\n' ∉ l := hnl l (List.mem_cons_self _ _)
    have hkl : ¬ l.take 8 = versionKey := hk l (List.mem_cons_self _ _)
    cases ls' with
    | nil =>
      show hasVersionMatch l true = false
      rw [hasVersionMatch_true_eof hl]
      have hm : matchAt l = none := by
        have := matchAt_none_of_take hkl (Or.inl rfl)
        rwa [List.append_nil] at this
      rw [hm]
      rfl
    | cons l2 ls'' =>
      rw [joinNl_cons, hasVersionMatch_true_line _ hl,
        matchAt_none_of_take hkl (Or.inr ⟨_, rfl⟩)]
      have hnl' : ∀ y ∈ l2 :: ls'', '\n' ∉ y :=
        fun y hy => hnl y (List.mem_cons_of_mem l hy)
      have hk' : ∀ y ∈ l2 :: ls'', ¬ y.take 8 = versionKey :=
        fun y hy => hk y (List.mem_cons_of_mem l hy)
      rw [ih hnl' hk']
      rfl

theorem updateVersion_join (ls : List (List Char)) (v : List Char)
    (hnl : ∀ l ∈ ls, '\n' ∉ l)
    (hex : ∃ l ∈ ls, l.take 8 = versionKey)
    (hH : ∀ l ∈ ls, l.take 8 = versionKey → (l.drop 8).any (fun c => !wsChar c) = true) :
    UpdateVersionModel (joinNl ls) v =
      .ok (joinNl (ls.map (mapLine ("version: ".toList ++ v)))) := by
  unfold UpdateVersionModel
  rw [hasMatch_join_true ls hnl hH hex, if_pos rfl,
    replace_join ("version: ".toList ++ v) ls hnl hH]

theorem updateVersion_join_none (ls : List (List Char)) (v : List Char)
    (hnl : ∀ l ∈ ls, '\n' ∉ l)
    (hnone : ∀ l ∈ ls, ¬ l.take 8 = versionKey) :
    updateVersionRun (joinNl ls) v =
      (some "version field not found in pubspec.yaml", joinNl ls, false) := by
  unfold updateVersionRun UpdateVersionModel
  rw [hasMatch_join_false ls hnl hnone]
  rfl

/-! ## Template expansion lemmas -/

theorem expandF_cons_ne_dollar (m : List Char) (fuel : Nat) (c : Char)
    (rest : List Char) (hc : c ≠ '$') :
    expandF m (fuel + 1) (c :: rest) = c :: expandF m fuel rest := by
  rw [expandF, if_neg hc]

theorem expandF_no_dollar (m : List Char) :
    ∀ (fuel : Nat) (l : List Char), '$' ∉ l → expandF m fuel l = l := by
  intro fuel
  induction fuel with
  | zero => intro l _; cases l <;> rfl
  | succ f ih =>
    intro l h
    cases l with
    | nil => rfl
    | cons c rest =>
      have hc : c ≠ '$' := fun hcc => h (hcc ▸ List.mem_cons_self c rest)
      rw [expandF_cons_ne_dollar m f c rest hc]
      congr 1
      exact ih rest (fun hm => h (List.mem_cons_of_mem c hm))

theorem expandTmpl_no_dollar (m tmpl : List Char) (h : '$' ∉ tmpl) :
    expandTmpl m tmpl = tmpl :=
  expandF_no_dollar m tmpl.length tmpl h

theorem no_dollar_version_tmpl {v : List Char} (hv : '$' ∉ v) :
    '$' ∉ ("version: ".toList ++ v) := by
  intro hm
  rcases List.mem_append.mp hm with h1 | h2
  · exact absurd h1 (by decide)
  · exact hv h2

theorem map_mapLine_literal (v : List Char) (hv : '$' ∉ v) :
    ∀ ls : List (List Char),
      ls.map (mapLine ("version: ".toList ++ v)) =
        ls.map (fun l => if lineVersionMatch l then "version: ".toList ++ v else l) := by
  intro ls
  induction ls with
  | nil => rfl
  | cons l ls' ih =>
    simp only [List.map]
    rw [ih]
    congr 1
    unfold mapLine
    by_cases hm : lineVersionMatch l
    · rw [if_pos hm, if_pos hm,
        expandTmpl_no_dollar l _ (no_dollar_version_tmpl hv)]
    · rw [if_neg hm, if_neg hm]

/-! ## Claims about `UpdateVersion` -/

/-- C1 (amended): for every manifest in which at least one line starts at
column zero with `version:` and every such line carries a non-whitespace
character after the colon on the same line (so the greedy `\s*` of the pattern
cannot run past the end of the line), `UpdateVersion` succeeds and rewrites
exactly the `version:` lines — the resulting text is the original's lines with
each `version:` line replaced by the expansion of `"version: " ++ v` and every
other line byte-for-byte unchanged. -/
theorem updateVersion_rewrites_only_version_lines :
    ∀ (content v : List Char),
      (∃ l ∈ splitNl content, l.take 8 = versionKey) →
      (∀ l ∈ splitNl content, l.take 8 = versionKey →
        (l.drop 8).any (fun c => !wsChar c) = true) →
      UpdateVersionModel content v =
        .ok (joinNl ((splitNl content).map (mapLine ("version: ".toList ++ v)))) := by
  intro content v hex hH
  have h := updateVersion_join (splitNl content) v (splitNl_no_nl content) hex hH
  rwa [joinNl_splitNl] at h

/-- Witness for C1 (amended) on a four-line manifest with a comment line. -/
theorem updateVersion_rewrites_only_version_lines_witness :
    UpdateVersionModel "name: p\n# note\nversion: 1.0.0\ndescription: d\n".toList
        "2.0.0".toList =
      .ok (joinNl ((splitNl "name: p\n# note\nversion: 1.0.0\ndescription: d\n".toList).map
        (mapLine ("version: ".toList ++ "2.0.0".toList)))) ∧
    joinNl ((splitNl "name: p\n# note\nversion: 1.0.0\ndescription: d\n".toList).map
        (mapLine ("version: ".toList ++ "2.0.0".toList))) =
      "name: p\n# note\nversion: 2.0.0\ndescription: d\n".toList :=
  ⟨updateVersion_rewrites_only_version_lines _ _ (by decide) (by decide), by decide⟩

/-- Counterexample for C1 as stated: the manifest `"version: \nname: p\n"` has
a line starting at column zero with `version:` (satisfying the claim's
hypothesis), yet `UpdateVersion` produces `"version: 2.0.0\n"` — the greedy
`\s*` of the pattern crosses the newline, the match swallows the following
line, and the non-matching line `"name: p"` is destroyed rather than kept
byte-for-byte (the line count changes from 3 to 2). -/
theorem updateVersion_line_preservation_cex :
    ("version: ".toList ∈ splitNl "version: \nname: p\n".toList ∧
     "version: ".toList.take 8 = versionKey) ∧
    UpdateVersionModel "version: \nname: p\n".toList "2.0.0".toList =
      .ok "version: 2.0.0\n".toList ∧
    "name: p".toList ∈ splitNl "version: \nname: p\n".toList ∧
    "name: p".toList ∉ splitNl "version: 2.0.0\n".toList ∧
    (splitNl "version: 2.0.0\n".toList).length ≠
      (splitNl "version: \nname: p\n".toList).length := by
  decide

/-- C2: on a manifest in which no line starts at column zero with `version:`,
`UpdateVersion` fails with the field-not-found error, the file content is
unmodified, and no write occurs. -/
theorem updateVersion_no_field_error :
    ∀ (content v : List Char),
      (∀ l ∈ splitNl content, ¬ l.take 8 = versionKey) →
      updateVersionRun content v =
        (some "version field not found in pubspec.yaml", content, false) := by
  intro content v h
  have := updateVersion_join_none (splitNl content) v (splitNl_no_nl content) h
  rwa [joinNl_splitNl] at this

/-- Witness for C2 on a manifest with an indented `version:` line only. -/
theorem updateVersion_no_field_error_witness :
    updateVersionRun "name: p\n  version: 1.0.0\ndescription: d\n".toList
        "2.0.0".toList =
      (some "version field not found in pubspec.yaml",
        "name: p\n  version: 1.0.0\ndescription: d\n".toList, false) :=
  updateVersion_no_field_error _ _ (by decide)

/-- C10: (a) for every replacement version containing no `'$'`, the template
`"version: " ++ v` expands to itself, so every matched region is rewritten to
exactly that string — in particular, under the single-line-match hypotheses,
every matching line of the output is exactly `"version: " ++ v`, with the
original spacing and any trailing content of the line discarded; (b) for the
version string `"$1"`, the written line differs from `"version: $1"`: the `$1`
is expanded as a (nonexistent) capture-group reference, yielding
`"version: "`. -/
theorem updateVersion_template_expansion :
    (∀ (matched v : List Char), '$' ∉ v →
      expandTmpl matched ("version: ".toList ++ v) = "version: ".toList ++ v) ∧
    (∀ (content v : List Char), '$' ∉ v →
      (∃ l ∈ splitNl content, l.take 8 = versionKey) →
      (∀ l ∈ splitNl content, l.take 8 = versionKey →
        (l.drop 8).any (fun c => !wsChar c) = true) →
      UpdateVersionModel content v =
        .ok (joinNl ((splitNl content).map
          (fun l => if lineVersionMatch l then "version: ".toList ++ v else l)))) ∧
    (UpdateVersionModel "version: 1.0.0\n".toList ['$', '1'] =
      .ok "version: \n".toList ∧
     "version: \n".toList ≠ "version: ".toList ++ ['$', '1'] ++ ['\n']) := by
  refine ⟨?_, ?_, by decide, by decide⟩
  · intro m v hv
    exact expandTmpl_no_dollar m _ (no_dollar_version_tmpl hv)
  · intro content v hv hex hH
    have h := updateVersion_join (splitNl content) v (splitNl_no_nl content) hex hH
    rw [joinNl_splitNl] at h
    rw [h, map_mapLine_literal v hv]

/-- Witness for C10's universally quantified parts at a concrete manifest. -/
theorem updateVersion_template_expansion_witness :
    expandTmpl "version: 1.0.0".toList ("version: ".toList ++ "2.0.0".toList) =
      "version: ".toList ++ "2.0.0".toList ∧
    UpdateVersionModel "version: 1.0.0 # pre\n".toList "2.0.0".toList =
      .ok (joinNl ((splitNl "version: 1.0.0 # pre\n".toList).map
        (fun l => if lineVersionMatch l then "version: ".toList ++ "2.0.0".toList
          else l))) ∧
    joinNl ((splitNl "version: 1.0.0 # pre\n".toList).map
        (fun l => if lineVersionMatch l then "version: ".toList ++ "2.0.0".toList
          else l)) =
      "version: 2.0.0\n".toList :=
  ⟨updateVersion_template_expansion.1 _ _ (by decide),
   updateVersion_template_expansion.2.1 _ _ (by decide) (by decide) (by decide),
   by decide⟩

end Pub
